import Mathlib

/-!
# Verification of the Laguerre-Volterra Network core

Shallow embedding of `laguerre_volterra_network.py` (class `LVN`).

Conventions of the embedding:
* Real-valued samples, weights and coefficients are modelled as `ℝ`.
* Constructor arguments (`laguerre_order`, ..., `sampling_interval`) are
  modelled as `ℚ`: the Python code accepts arbitrary numbers there and
  truncates the structural ones with `int(...)`.
* A numpy matrix is a `List (List ℝ)` of its rows; a numpy 1-D array is a
  `List ℝ`.  `np.shape(a)[0]` is the length of the outer list.
* The in-place fills of `bank_outputs` in `propagate_laguerre_filterbank`
  are rendered as the recursion `bank_outputs` below: column index `0`
  holds the extra all-zero column the code allocates for `n = -1`
  (`np.zeros((L, 1 + len(signal)))`), and the two fill loops only ever read
  entries written earlier, so the matrix entry at `[j, n+1]` is the value of
  the recursion at `(j, n+1)`.
* `exit(-1)` on a failed sanity check is modelled by returning `none`.
-/

set_option autoImplicit false

open scoped BigOperators

/-- Structural state stored by `LVN.__init__` after a successful sanity
check: `self.L`, `self.H`, `self.Q` (after `int(...)` truncation),
`self.T` and `self.bo_link`. -/
structure LVN where
  L : ℕ
  H : ℕ
  Q : ℕ
  T : ℚ
  bo_link : Bool
deriving DecidableEq, Repr

/-- A numpy array argument as passed to `set_polynomial_coefficients`:
either 1-dimensional or 2-dimensional. -/
inductive NpArray where
  | vec : List ℝ → NpArray
  | mat : List (List ℝ) → NpArray

/-- Numpy `np.shape(a)[0]`: the first dimension of the array. -/
def NpArray.shape0 : NpArray → ℕ
  | NpArray.vec v => v.length
  | NpArray.mat m => m.length

/-- The mutable state of an `LVN` object: structural parameters plus
`self.connection_weights` and `self.polynomial_coefficients` (both
initialised to `None` by the constructor). -/
structure LVNState where
  lvn : LVN
  connection_weights : Option (List (List ℝ))
  polynomial_coefficients : Option NpArray

/-- Constructor `LVN.__init__(laguerre_order, num_hidden_units, polynomial_order,
sampling_interval, bo_link)`.  The code checks `param <= 0` for L, H, Q and
`sampling_interval <= 0`, exiting on failure, and otherwise stores
`int(laguerre_order)` etc.  For the values that pass the check (strictly
positive) Python `int` truncation coincides with `Rat.floor`.  The
`isinstance(bo_link, bool)` check is enforced by the type of `bo`. -/
def LVN_init (laguerre_order num_hidden_units polynomial_order sampling_interval : ℚ)
    (bo : Bool) : Option LVNState :=
  if laguerre_order ≤ 0 ∨ num_hidden_units ≤ 0 ∨ polynomial_order ≤ 0 then
    none
  else if sampling_interval ≤ 0 then
    none
  else
    some { lvn :=
            { L := laguerre_order.floor.toNat
              H := num_hidden_units.floor.toNat
              Q := polynomial_order.floor.toNat
              T := sampling_interval
              bo_link := bo }
           connection_weights := none
           polynomial_coefficients := none }

/-- The filled `bank_outputs` matrix of `propagate_laguerre_filterbank`,
indexed as in the code: `bank_outputs T α x j c` is entry `[j, c]` of the
`(L, 1 + N)` matrix, whose column `0` is the extra zero column for
`n = -1`.  The first loop writes row `0` at column `n + 1` from column
`n - 1 + 1 = n` and sample `x n`; the second loop writes row `j` at column
`n + 1` from `[j, n]`, `[j - 1, n + 1]` and `[j - 1, n]`. -/
noncomputable def bank_outputs (T α : ℝ) (x : ℕ → ℝ) : ℕ → ℕ → ℝ
  | _, 0 => 0
  | 0, n + 1 =>
      Real.sqrt α * bank_outputs T α x 0 n + T * Real.sqrt (1 - α) * x n
  | j + 1, n + 1 =>
      Real.sqrt α * (bank_outputs T α x (j + 1) n + bank_outputs T α x j (n + 1))
        - bank_outputs T α x j n
termination_by j n => (j, n)

/-- The discrete Laguerre recursion exactly as the specification words it,
indexed by time `n` (no column shift), with a virtual zero sample at
`n = -1` for every order:
`V₀[n] = √alpha · V₀[n−1] + T·√(1−alpha) · x[n]` and, for `j ≥ 1`,
`Vⱼ[n] = √alpha · (Vⱼ[n−1] + Vⱼ₋₁[n]) − Vⱼ₋₁[n−1]`. -/
noncomputable def laguerreSpecV (T α : ℝ) (x : ℕ → ℝ) : ℕ → ℕ → ℝ
  | 0, 0 => Real.sqrt α * 0 + T * Real.sqrt (1 - α) * x 0
  | 0, n + 1 =>
      Real.sqrt α * laguerreSpecV T α x 0 n + T * Real.sqrt (1 - α) * x (n + 1)
  | j + 1, 0 => Real.sqrt α * (0 + laguerreSpecV T α x j 0) - 0
  | j + 1, n + 1 =>
      Real.sqrt α * (laguerreSpecV T α x (j + 1) n + laguerreSpecV T α x j (n + 1))
        - laguerreSpecV T α x j n
termination_by j n => (j, n)

/-- The `(L, N)` matrix returned by `propagate_laguerre_filterbank` after
the sanity checks: `bank_outputs = bank_outputs[:, 1:]`, so row `j`,
column `n` of the result is entry `[j, n + 1]` of the filled matrix.
Out-of-range samples read as `0`, matching the zero initialisation. -/
noncomputable def laguerre_outputs (lvn : LVN) (signal : List ℝ) (α : ℝ) :
    List (List ℝ) :=
  (List.range lvn.L).map fun j =>
    (List.range signal.length).map fun n =>
      bank_outputs (lvn.T : ℝ) α (fun i => signal.getD i 0) j (n + 1)

/-- Method `LVN.propagate_laguerre_filterbank(signal, alpha)` with its sanity
checks: the `isinstance(signal, Iterable)` check is enforced by the type of
`signal`, and `alpha <= 0` exits the process (modelled as `none`). -/
noncomputable def propagate_laguerre_filterbank (lvn : LVN) (signal : List ℝ)
    (α : ℝ) : Option (List (List ℝ)) :=
  if α ≤ 0 then none else some (laguerre_outputs lvn signal α)

/-- Method `LVN.set_polynomial_coefficients(polynomial_coefficients)`: the code
compares only `np.shape(polynomial_coefficients)[0]` with the expected
length, which depends on `bo_link`, exiting on mismatch; on success it
stores the argument. -/
def set_polynomial_coefficients (s : LVNState) (polynomial_coefficients : NpArray) :
    Option LVNState :=
  if s.lvn.bo_link = true ∧
      polynomial_coefficients.shape0 ≠ s.lvn.H * (s.lvn.Q - 1) + s.lvn.L + 1 then
    none
  else if (¬ s.lvn.bo_link = true) ∧
      polynomial_coefficients.shape0 ≠ s.lvn.H * s.lvn.Q + 1 then
    none
  else
    some { s with polynomial_coefficients := some polynomial_coefficients }

/-- Transpose `laguerre_outputs.T`: the `(N, L)` transpose, written by index swap on
the same recursion values. -/
noncomputable def laguerre_outputs_T (lvn : LVN) (signal : List ℝ) (α : ℝ) :
    List (List ℝ) :=
  (List.range signal.length).map fun n =>
    (List.range lvn.L).map fun j =>
      bank_outputs (lvn.T : ℝ) α (fun i => signal.getD i 0) j (n + 1)

/-- Product `hidden_nodes_in = laguerre_outputs.T @ self.connection_weights`, the
`(N, H)` matrix-product: entry `(n, h)` is the dot product of column `n` of
the filter-bank output with column `h` of the `(L, H)` weight matrix. -/
noncomputable def hidden_nodes_in (lvn : LVN) (W : List (List ℝ))
    (signal : List ℝ) (α : ℝ) : List (List ℝ) :=
  (List.range signal.length).map fun n =>
    (List.range lvn.H).map fun h =>
      ∑ j ∈ Finset.range lvn.L,
        bank_outputs (lvn.T : ℝ) α (fun i => signal.getD i 0) j (n + 1) *
          (W.getD j []).getD h 0

/-- Loop start `first_index`: `2` when `bo_link` else `1`. -/
def first_index (bo : Bool) : ℕ := if bo then 2 else 1

/-- Width of the `np.ones` matrix allocated by `compute_enhanced_input`:
`H * (Q - 1) + 1` when `bo_link` else `H * Q + 1`. -/
def ones_width (lvn : LVN) : ℕ :=
  if lvn.bo_link then lvn.H * (lvn.Q - 1) + 1 else lvn.H * lvn.Q + 1

/-- Numpy slice assignment `row[a : a + len(vals)] = vals` on one row. -/
def setSlice (row : List ℝ) (a : ℕ) (vals : List ℝ) : List ℝ :=
  row.take a ++ vals ++ row.drop (a + vals.length)

/-- One row of the enhanced-input matrix before the `bo_link`
concatenation: starting from a row of ones of width `ones_width`, the loop
`for q in range(first_index, Q + 1)` assigns the elementwise `q`-th power
of the corresponding `hidden_nodes_in` row to the column block
`[1 + (q - first_index) * H, 1 + (q - first_index + 1) * H)`. -/
noncomputable def enhanced_row (lvn : LVN) (hrow : List ℝ) : List ℝ :=
  (List.range' (first_index lvn.bo_link)
      (lvn.Q + 1 - first_index lvn.bo_link)).foldl
    (fun row q =>
      setSlice row (1 + (q - first_index lvn.bo_link) * lvn.H)
        (hrow.map fun v => v ^ q))
    (List.replicate (ones_width lvn) 1)

/-- The enhanced-input matrix built by `compute_enhanced_input` after its
sanity checks: the per-`q` block assignments act independently on each of
the `N` rows, and when `bo_link` the transposed filter-bank output is
`np.hstack`-ed on the right. -/
noncomputable def enhanced_input (lvn : LVN) (W : List (List ℝ))
    (signal : List ℝ) (α : ℝ) : List (List ℝ) :=
  let base := (hidden_nodes_in lvn W signal α).map (enhanced_row lvn)
  if lvn.bo_link then
    List.zipWith (fun r t => r ++ t) base (laguerre_outputs_T lvn signal α)
  else
    base

/-- Method `LVN.compute_enhanced_input(signal, alpha)` with its sanity checks:
`connection_weights` must have been fed (`None` fails the `isinstance`
check) and `alpha` must be strictly positive. -/
noncomputable def compute_enhanced_input (s : LVNState) (signal : List ℝ)
    (α : ℝ) : Option (List (List ℝ)) :=
  match s.connection_weights with
  | none => none
  | some W => if α ≤ 0 then none else some (enhanced_input s.lvn W signal α)

/-- Dot product of two rows, `(r * c).sum` over the common length, as in a
numpy matrix product. -/
noncomputable def dotRow (r c : List ℝ) : ℝ := (List.zipWith (fun u v => u * v) r c).sum

/-- Product `E @ v` for a matrix `E` and a 1-D array `v`. -/
noncomputable def matVec (E : List (List ℝ)) (v : List ℝ) : List ℝ :=
  E.map fun row => dotRow row v

/-- Column `c` of a 2-D array. -/
def matCol (m : List (List ℝ)) (c : ℕ) : List ℝ :=
  m.map fun row => row.getD c 0

/-- Product `E @ m` for two 2-D arrays. -/
noncomputable def matMat (E : List (List ℝ)) (m : List (List ℝ)) : List (List ℝ) :=
  E.map fun row =>
    (List.range (m.headD []).length).map fun c => dotRow row (matCol m c)

/-- Product `E @ theta` for either shape of stored coefficients. -/
noncomputable def matApply (E : List (List ℝ)) : NpArray → NpArray
  | NpArray.vec v => NpArray.vec (matVec E v)
  | NpArray.mat m => NpArray.mat (matMat E m)

/-- Method `LVN.predict(in_signal, alpha)`: requires `polynomial_coefficients` to
be set (the `isinstance` check fails on `None`), computes the enhanced
input (whose own checks may fail), and returns
`enhanced_input @ polynomial_coefficients`. -/
noncomputable def predict (s : LVNState) (in_signal : List ℝ) (α : ℝ) :
    Option NpArray :=
  match s.polynomial_coefficients with
  | none => none
  | some θ =>
      match compute_enhanced_input s in_signal α with
      | none => none
      | some E => some (matApply E θ)

/-- Expected length of the polynomial-coefficient vector (`F` in the
specification), as checked by `set_polynomial_coefficients`. -/
def poly_coeff_len (lvn : LVN) : ℕ :=
  if lvn.bo_link then lvn.H * (lvn.Q - 1) + lvn.L + 1 else lvn.H * lvn.Q + 1

theorem bank_outputs_zero_col (T α : ℝ) (x : ℕ → ℝ) (j : ℕ) :
    bank_outputs T α x j 0 = 0 := by
  cases j <;> simp [bank_outputs]

/-- Dropping the extra zero column: entry `[j, n + 1]` of the code's matrix
is the spec's `Vⱼ[n]`. -/
theorem bank_outputs_eq_spec (T α : ℝ) (x : ℕ → ℝ) :
    ∀ j n, bank_outputs T α x j (n + 1) = laguerreSpecV T α x j n := by
  intro j
  induction j with
  | zero =>
      intro n
      induction n with
      | zero => simp [bank_outputs, laguerreSpecV]
      | succ n ih => rw [bank_outputs, laguerreSpecV, ih]
  | succ j ihj =>
      intro n
      induction n with
      | zero =>
          rw [bank_outputs, laguerreSpecV, ihj 0, bank_outputs_zero_col,
            bank_outputs_zero_col]
      | succ n ihn => rw [bank_outputs, laguerreSpecV, ihn, ihj (n + 1), ihj n]

/-- The filter-bank recursion is linear in the input signal. -/
theorem bank_outputs_linear (T α a b : ℝ) (x y z : ℕ → ℝ)
    (hz : ∀ n, z n = a * x n + b * y n) :
    ∀ j n, bank_outputs T α z j n =
      a * bank_outputs T α x j n + b * bank_outputs T α y j n := by
  intro j
  induction j with
  | zero =>
      intro n
      induction n with
      | zero => simp [bank_outputs]
      | succ n ih => rw [bank_outputs, bank_outputs, bank_outputs, ih, hz n]; ring
  | succ j ihj =>
      intro n
      induction n with
      | zero => simp [bank_outputs_zero_col]
      | succ n ihn =>
          rw [bank_outputs, bank_outputs, bank_outputs, ihn, ihj (n + 1), ihj n]
          ring

theorem ones_width_pos (lvn : LVN) : 1 ≤ ones_width lvn := by
  unfold ones_width
  split <;> omega

theorem ones_width_eq (lvn : LVN) :
    ones_width lvn =
      (lvn.Q + 1 - first_index lvn.bo_link) * lvn.H + 1 := by
  unfold ones_width first_index
  cases hb : lvn.bo_link <;> simp <;> exact Nat.mul_comm _ _

theorem setSlice_length (row vals : List ℝ) (a : ℕ)
    (h : a + vals.length ≤ row.length) :
    (setSlice row a vals).length = row.length := by
  simp only [setSlice, List.length_append, List.length_take, List.length_drop]
  omega

theorem setSlice_getD_zero (row vals : List ℝ) (a : ℕ) (ha : 1 ≤ a)
    (hrow : row ≠ []) : (setSlice row a vals).getD 0 0 = row.getD 0 0 := by
  cases row with
  | nil => exact absurd rfl hrow
  | cons r rs =>
      cases a with
      | zero => omega
      | succ a => simp [setSlice]

theorem slice_bound (H Q f q : ℕ) (h1 : f ≤ q) (h2 : q ≤ Q) :
    1 + (q - f) * H + H ≤ (Q + 1 - f) * H + 1 := by
  have hle : (q - f) + 1 ≤ Q + 1 - f := by omega
  have hmul := Nat.mul_le_mul_right H hle
  rw [Nat.succ_mul] at hmul
  omega

/-- Invariant of the block-assignment loop of `compute_enhanced_input`: as
long as every written block fits, the row keeps its width and its first
entry stays `1`. -/
theorem foldl_setSlice_inv (lvn : LVN) (hrow : List ℝ)
    (hh : hrow.length = lvn.H) :
    ∀ qs : List ℕ,
      (∀ q ∈ qs, first_index lvn.bo_link ≤ q ∧ q ≤ lvn.Q) →
      ∀ row : List ℝ, row.length = ones_width lvn → row.getD 0 0 = 1 →
      (qs.foldl
          (fun row q =>
            setSlice row (1 + (q - first_index lvn.bo_link) * lvn.H)
              (hrow.map fun v => v ^ q)) row).length = ones_width lvn ∧
        (qs.foldl
          (fun row q =>
            setSlice row (1 + (q - first_index lvn.bo_link) * lvn.H)
              (hrow.map fun v => v ^ q)) row).getD 0 0 = 1 := by
  intro qs
  induction qs with
  | nil => intro _ row h1 h2; exact ⟨h1, h2⟩
  | cons q qs ih =>
      intro hq row h1 h2
      have hq0 := hq q (List.mem_cons_self q qs)
      have hfit : 1 + (q - first_index lvn.bo_link) * lvn.H +
          (hrow.map fun v => v ^ q).length ≤ row.length := by
        rw [List.length_map, hh, h1, ones_width_eq]
        exact slice_bound lvn.H lvn.Q (first_index lvn.bo_link) q hq0.1 hq0.2
      have hlen := setSlice_length row (hrow.map fun v => v ^ q)
        (1 + (q - first_index lvn.bo_link) * lvn.H) hfit
      have hrow_ne : row ≠ [] := by
        intro h
        rw [h] at h1
        have := ones_width_pos lvn
        simp at h1
        omega
      have hzero := setSlice_getD_zero row (hrow.map fun v => v ^ q)
        (1 + (q - first_index lvn.bo_link) * lvn.H) (by omega) hrow_ne
      simp only [List.foldl_cons]
      exact ih (fun p hp => hq p (List.mem_cons_of_mem q hp)) _
        (by rw [hlen, h1]) (by rw [hzero, h2])

theorem enhanced_row_length (lvn : LVN) (hrow : List ℝ)
    (hh : hrow.length = lvn.H) :
    (enhanced_row lvn hrow).length = ones_width lvn := by
  unfold enhanced_row
  refine (foldl_setSlice_inv lvn hrow hh _ ?_ _ (by simp) ?_).1
  · intro q hq
    rw [List.mem_range'_1] at hq
    have := first_index lvn.bo_link
    omega
  · have := ones_width_pos lvn
    cases h : ones_width lvn with
    | zero => omega
    | succ k => simp [List.replicate_succ]

theorem enhanced_row_getD_zero (lvn : LVN) (hrow : List ℝ)
    (hh : hrow.length = lvn.H) :
    (enhanced_row lvn hrow).getD 0 0 = 1 := by
  unfold enhanced_row
  refine (foldl_setSlice_inv lvn hrow hh _ ?_ _ (by simp) ?_).2
  · intro q hq
    rw [List.mem_range'_1] at hq
    omega
  · have := ones_width_pos lvn
    cases h : ones_width lvn with
    | zero => omega
    | succ k => simp [List.replicate_succ]

theorem map_range_getD {β : Type _} (f : ℕ → β) (N n : ℕ) (d : β)
    (hn : n < N) : ((List.range N).map f).getD n d = f n := by
  rw [List.getD_eq_getElem _ _ (by simpa using hn)]
  simp

theorem map_getD {β γ : Type _} (f : β → γ) (l : List β) (n : ℕ) (d : β)
    (d2 : γ) (h : n < l.length) : (l.map f).getD n d2 = f (l.getD n d) := by
  rw [List.getD_eq_getElem _ _ (by simpa using h), List.getD_eq_getElem _ _ h,
    List.getElem_map]

theorem zipWith_getD {β γ δ : Type _} (f : β → γ → δ) (l1 : List β)
    (l2 : List γ) (n : ℕ) (d1 : β) (d2 : γ) (d3 : δ) (h1 : n < l1.length)
    (h2 : n < l2.length) :
    (List.zipWith f l1 l2).getD n d3 = f (l1.getD n d1) (l2.getD n d2) := by
  rw [List.getD_eq_getElem _ _ (by simp; omega), List.getD_eq_getElem _ _ h1,
    List.getD_eq_getElem _ _ h2, List.getElem_zipWith]

theorem getD_zero_append (l l2 : List ℝ) (h : l ≠ []) :
    (l ++ l2).getD 0 0 = l.getD 0 0 := by
  cases l with
  | nil => exact absurd rfl h
  | cons a l => simp

theorem hidden_nodes_in_length (lvn : LVN) (W : List (List ℝ))
    (signal : List ℝ) (α : ℝ) :
    (hidden_nodes_in lvn W signal α).length = signal.length := by
  simp [hidden_nodes_in]

theorem hidden_nodes_in_getD (lvn : LVN) (W : List (List ℝ))
    (signal : List ℝ) (α : ℝ) (n : ℕ) (hn : n < signal.length) :
    (hidden_nodes_in lvn W signal α).getD n [] =
      (List.range lvn.H).map fun h =>
        ∑ j ∈ Finset.range lvn.L,
          bank_outputs (lvn.T : ℝ) α (fun i => signal.getD i 0) j (n + 1) *
            (W.getD j []).getD h 0 := by
  unfold hidden_nodes_in
  exact map_range_getD _ _ n [] hn

theorem hidden_nodes_in_row_length (lvn : LVN) (W : List (List ℝ))
    (signal : List ℝ) (α : ℝ) (n : ℕ) (hn : n < signal.length) :
    ((hidden_nodes_in lvn W signal α).getD n []).length = lvn.H := by
  rw [hidden_nodes_in_getD lvn W signal α n hn]
  simp

theorem laguerre_outputs_T_getD (lvn : LVN) (signal : List ℝ) (α : ℝ)
    (n : ℕ) (hn : n < signal.length) :
    (laguerre_outputs_T lvn signal α).getD n [] =
      (List.range lvn.L).map fun j =>
        bank_outputs (lvn.T : ℝ) α (fun i => signal.getD i 0) j (n + 1) := by
  unfold laguerre_outputs_T
  exact map_range_getD _ _ n [] hn

theorem enhanced_input_length (lvn : LVN) (W : List (List ℝ))
    (signal : List ℝ) (α : ℝ) :
    (enhanced_input lvn W signal α).length = signal.length := by
  unfold enhanced_input
  cases hb : lvn.bo_link <;> simp [hidden_nodes_in, laguerre_outputs_T]

theorem enhanced_input_getD (lvn : LVN) (W : List (List ℝ))
    (signal : List ℝ) (α : ℝ) (n : ℕ) (hn : n < signal.length) :
    (enhanced_input lvn W signal α).getD n [] =
      if lvn.bo_link then
        enhanced_row lvn ((hidden_nodes_in lvn W signal α).getD n []) ++
          (laguerre_outputs_T lvn signal α).getD n []
      else enhanced_row lvn ((hidden_nodes_in lvn W signal α).getD n []) := by
  unfold enhanced_input
  cases hb : lvn.bo_link
  · simp only [hb, Bool.false_eq_true, if_false]
    exact map_getD _ _ n [] [] (by rw [hidden_nodes_in_length]; exact hn)
  · simp only [hb, if_true]
    rw [zipWith_getD _ _ _ n [] [] []
        (by rw [List.length_map, hidden_nodes_in_length]; exact hn)
        (by simp [laguerre_outputs_T]; exact hn)]
    rw [map_getD _ _ n [] [] (by rw [hidden_nodes_in_length]; exact hn)]

theorem compute_enhanced_input_eq (s : LVNState) (signal : List ℝ) (α : ℝ)
    (E : List (List ℝ)) (hE : compute_enhanced_input s signal α = some E) :
    ∃ W, s.connection_weights = some W ∧ 0 < α ∧
      E = enhanced_input s.lvn W signal α := by
  unfold compute_enhanced_input at hE
  cases hW : s.connection_weights with
  | none => simp only [hW] at hE; exact absurd hE (by simp)
  | some W =>
      simp only [hW] at hE
      by_cases hα : α ≤ 0
      · rw [if_pos hα] at hE
        exact absurd hE (by simp)
      · rw [if_neg hα] at hE
        exact ⟨W, rfl, lt_of_not_le hα, (Option.some.inj hE).symm⟩

/-- C1: for every signal and every `0 < alpha < 1`,
`propagate_laguerre_filterbank` succeeds and returns the `(L, N)` matrix of
the discrete Laguerre recursion with a virtual zero sample at `n = -1`
(`laguerreSpecV`); for `N = 0` every row is empty, so the shape is
`(L, 0)`. -/
theorem lvn_c1_propagate_spec (lvn : LVN) (signal : List ℝ) (α : ℝ)
    (h0 : 0 < α) (h1 : α < 1) :
    propagate_laguerre_filterbank lvn signal α =
      some (laguerre_outputs lvn signal α) ∧
    (laguerre_outputs lvn signal α).length = lvn.L ∧
    (∀ row ∈ laguerre_outputs lvn signal α, row.length = signal.length) ∧
    ∀ j < lvn.L, ∀ n < signal.length,
      ((laguerre_outputs lvn signal α).getD j []).getD n 0 =
        laguerreSpecV (lvn.T : ℝ) α (fun i => signal.getD i 0) j n := by
  refine ⟨?_, ?_, ?_, ?_⟩
  · rw [propagate_laguerre_filterbank, if_neg (not_le.mpr h0)]
  · simp [laguerre_outputs]
  · intro row hrow
    unfold laguerre_outputs at hrow
    rw [List.mem_map] at hrow
    obtain ⟨j, _, rfl⟩ := hrow
    simp
  · intro j hj n hn
    unfold laguerre_outputs
    rw [map_range_getD _ _ j [] hj, map_range_getD _ _ n 0 hn]
    exact bank_outputs_eq_spec _ _ _ j n

theorem lvn_c1_witness :
    (0 : ℝ) < 1 / 2 ∧ (1 : ℝ) / 2 < 1 ∧
    propagate_laguerre_filterbank ⟨1, 1, 1, 1, false⟩ [] (1 / 2) =
      some (laguerre_outputs ⟨1, 1, 1, 1, false⟩ [] (1 / 2)) :=
  ⟨by norm_num, by norm_num,
    (lvn_c1_propagate_spec ⟨1, 1, 1, 1, false⟩ [] (1 / 2) (by norm_num)
      (by norm_num)).1⟩

/-- C5: `propagate_laguerre_filterbank` rejects every `alpha ≤ 0` and
performs no upper-bound validation: for every `alpha > 0`, including
`alpha ≥ 1`, the check passes and the recursion matrix is returned. -/
theorem lvn_c5_alpha_validation (lvn : LVN) (signal : List ℝ) (α : ℝ) :
    (α ≤ 0 → propagate_laguerre_filterbank lvn signal α = none) ∧
    (0 < α → propagate_laguerre_filterbank lvn signal α =
      some (laguerre_outputs lvn signal α)) := by
  constructor
  · intro h
    rw [propagate_laguerre_filterbank, if_pos h]
  · intro h
    rw [propagate_laguerre_filterbank, if_neg (not_le.mpr h)]

theorem lvn_c5_witness :
    propagate_laguerre_filterbank ⟨2, 1, 1, 1, false⟩ [1] 2 =
      some (laguerre_outputs ⟨2, 1, 1, 1, false⟩ [1] 2) ∧
    propagate_laguerre_filterbank ⟨2, 1, 1, 1, false⟩ [1] (-1) = none :=
  ⟨(lvn_c5_alpha_validation ⟨2, 1, 1, 1, false⟩ [1] 2).2 (by norm_num),
   (lvn_c5_alpha_validation ⟨2, 1, 1, 1, false⟩ [1] (-1)).1 (by norm_num)⟩

/-- C6: whenever `compute_enhanced_input` succeeds, its output has one row
per sample and every row has width `H*(Q-1)+L+1` when `bo_link` and
`H*Q+1` otherwise, independently of the signal length. -/
theorem lvn_c6_enhanced_width (s : LVNState) (signal : List ℝ) (α : ℝ)
    (E : List (List ℝ)) (hE : compute_enhanced_input s signal α = some E) :
    E.length = signal.length ∧
    ∀ n < E.length, (E.getD n []).length =
      if s.lvn.bo_link then s.lvn.H * (s.lvn.Q - 1) + s.lvn.L + 1
      else s.lvn.H * s.lvn.Q + 1 := by
  obtain ⟨W, hW, hα, rfl⟩ := compute_enhanced_input_eq s signal α E hE
  refine ⟨enhanced_input_length s.lvn W signal α, ?_⟩
  intro n hn
  rw [enhanced_input_length] at hn
  rw [enhanced_input_getD s.lvn W signal α n hn]
  have hhl := hidden_nodes_in_row_length s.lvn W signal α n hn
  cases hb : s.lvn.bo_link
  · simp only [hb, Bool.false_eq_true, if_false]
    rw [enhanced_row_length _ _ hhl]
    simp [ones_width, hb]
  · simp only [hb, if_true, List.length_append]
    rw [enhanced_row_length _ _ hhl, laguerre_outputs_T_getD s.lvn signal α n hn]
    simp only [List.length_map, List.length_range]
    simp only [ones_width, hb, if_true]
    omega

theorem lvn_c6_witness :
    compute_enhanced_input ⟨⟨1, 1, 1, 1, false⟩, some [[1]], none⟩ [] 1 =
      some [] ∧
    ([] : List (List ℝ)).length = ([] : List ℝ).length := by
  have hE : compute_enhanced_input ⟨⟨1, 1, 1, 1, false⟩, some [[1]], none⟩ [] 1 =
      some [] := by
    simp [compute_enhanced_input, enhanced_input, hidden_nodes_in]
  exact ⟨hE, (lvn_c6_enhanced_width _ [] 1 [] hE).1⟩

/-- C7: whenever `compute_enhanced_input` succeeds on a non-empty signal,
every entry of column `0` of its output is `1`. -/
theorem lvn_c7_column_ones (s : LVNState) (signal : List ℝ) (α : ℝ)
    (E : List (List ℝ)) (hE : compute_enhanced_input s signal α = some E)
    (hsig : signal ≠ []) :
    ∀ n < E.length, (E.getD n []).getD 0 0 = 1 := by
  obtain ⟨W, hW, hα, rfl⟩ := compute_enhanced_input_eq s signal α E hE
  intro n hn
  rw [enhanced_input_length] at hn
  rw [enhanced_input_getD s.lvn W signal α n hn]
  have hhl := hidden_nodes_in_row_length s.lvn W signal α n hn
  cases hb : s.lvn.bo_link
  · simp only [hb, Bool.false_eq_true, if_false]
    exact enhanced_row_getD_zero _ _ hhl
  · simp only [hb, if_true]
    rw [getD_zero_append _ _ (List.length_pos.mp
      (by rw [enhanced_row_length _ _ hhl]; exact ones_width_pos s.lvn))]
    exact enhanced_row_getD_zero _ _ hhl

/-- C3 counterexample: `create(2.5, 3, 2, 1, false)` does NOT fail — the
constructor only checks `param <= 0`, so the non-integer `laguerre_order
= 5/2` passes the check and is truncated by `int(...)` to `L = 2`. -/
theorem lvn_c3_counterexample :
    LVN_init (5 / 2) 3 2 1 false =
      some ⟨⟨2, 3, 2, 1, false⟩, none, none⟩ := by
  rw [LVN_init, if_neg (by norm_num), if_neg (by norm_num)]
  have h52 : ((5 / 2 : ℚ).floor.toNat = 2) := by
    rw [show (5 / 2 : ℚ).floor = ⌊(5 / 2 : ℚ)⌋ from rfl,
      show ⌊(5 / 2 : ℚ)⌋ = 2 by norm_num]
    rfl
  have h3 : ((3 : ℚ).floor.toNat = 3) := by
    rw [show (3 : ℚ).floor = ⌊(3 : ℚ)⌋ from rfl, show ⌊(3 : ℚ)⌋ = 3 by norm_num]
    rfl
  have h2 : ((2 : ℚ).floor.toNat = 2) := by
    rw [show (2 : ℚ).floor = ⌊(2 : ℚ)⌋ from rfl, show ⌊(2 : ℚ)⌋ = 2 by norm_num]
    rfl
  rw [h52, h3, h2]

/-- C3 (amended): `LVN.__init__` fails exactly when one of L, H, Q or T is
nonpositive; on success it returns the state with `connection_weights` and
`polynomial_coefficients` unset and the structural parameters truncated
toward zero.  Non-integer positive values are accepted, not rejected. -/
theorem lvn_c3_init_validation (l h q t : ℚ) (bo : Bool) :
    LVN_init l h q t bo =
      if l ≤ 0 ∨ h ≤ 0 ∨ q ≤ 0 ∨ t ≤ 0 then none
      else some ⟨⟨l.floor.toNat, h.floor.toNat, q.floor.toNat, t, bo⟩,
        none, none⟩ := by
  unfold LVN_init
  by_cases h1 : l ≤ 0 ∨ h ≤ 0 ∨ q ≤ 0
  · rw [if_pos h1, if_pos (by tauto)]
  · rw [if_neg h1]
    by_cases h2 : t ≤ 0
    · rw [if_pos h2, if_pos (by tauto)]
    · rw [if_neg h2, if_neg (by tauto)]

/-- C4 counterexample: a 2-dimensional coefficient array whose FIRST
dimension matches `F` is accepted and stored, although it is not a vector
of length `F`: only `np.shape(theta)[0]` is checked. -/
theorem lvn_c4_counterexample :
    set_polynomial_coefficients ⟨⟨1, 1, 1, 1, false⟩, none, none⟩
        (NpArray.mat [[1, 2, 3], [4, 5, 6]]) =
      some ⟨⟨1, 1, 1, 1, false⟩, none,
        some (NpArray.mat [[1, 2, 3], [4, 5, 6]])⟩ := by
  rw [set_polynomial_coefficients, if_neg (by simp [NpArray.shape0]),
    if_neg (by simp [NpArray.shape0])]

/-- C4 (amended): `set_polynomial_coefficients` fails exactly when the
FIRST dimension of its argument differs from `F = H*(Q-1)+L+1` (bo_link)
or `F = H*Q+1` (otherwise); any array whose first dimension is `F` is
stored, whether or not it is 1-dimensional. -/
theorem lvn_c4_shape_check (s : LVNState) (θ : NpArray) :
    set_polynomial_coefficients s θ =
      if θ.shape0 = poly_coeff_len s.lvn then
        some { s with polynomial_coefficients := some θ }
      else none := by
  unfold set_polynomial_coefficients poly_coeff_len
  cases hb : s.lvn.bo_link
  · rw [if_neg (by simp [hb])]
    by_cases hs : θ.shape0 = s.lvn.H * s.lvn.Q + 1
    · rw [if_neg (by simp [hs]), if_pos (by simp [hb, hs])]
    · rw [if_pos (by simp [hb, hs]), if_neg (by simp [hb, hs])]
  · by_cases hs : θ.shape0 = s.lvn.H * (s.lvn.Q - 1) + s.lvn.L + 1
    · rw [if_neg (by simp [hs]), if_neg (by simp [hb]), if_pos (by simp [hb, hs])]
    · rw [if_pos (by simp [hb, hs]), if_neg (by simp [hb, hs])]

theorem dotRow_add (row : List ℝ) :
    ∀ c1 c2 : List ℝ, c1.length = c2.length →
      dotRow row (List.zipWith (fun u v => u + v) c1 c2) =
        dotRow row c1 + dotRow row c2 := by
  induction row with
  | nil => intro c1 c2 _; simp [dotRow]
  | cons r rs ih =>
      intro c1 c2 h
      cases c1 with
      | nil =>
          cases c2 with
          | nil => simp [dotRow]
          | cons b bs => simp at h
      | cons a as =>
          cases c2 with
          | nil => simp at h
          | cons b bs =>
              have hih := ih as bs (by simpa using h)
              simp only [dotRow, List.zipWith_cons_cons, List.sum_cons] at hih ⊢
              rw [hih]
              ring

theorem matVec_add (E : List (List ℝ)) (c1 c2 : List ℝ)
    (h : c1.length = c2.length) :
    matVec E (List.zipWith (fun u v => u + v) c1 c2) =
      List.zipWith (fun u v => u + v) (matVec E c1) (matVec E c2) := by
  induction E with
  | nil => rfl
  | cons row E ih =>
      simp only [matVec, List.map_cons, List.zipWith_cons_cons] at ih ⊢
      rw [dotRow_add row c1 c2 h]
      exact congrArg _ ih

theorem predict_vec_eq (lvn : LVN) (W : List (List ℝ)) (v : List ℝ)
    (signal : List ℝ) (α : ℝ) (hα : ¬ α ≤ 0) :
    predict ⟨lvn, some W, some (NpArray.vec v)⟩ signal α =
      some (NpArray.vec (matVec (enhanced_input lvn W signal α) v)) := by
  unfold predict compute_enhanced_input
  simp only [if_neg hα]
  rfl

/-- C8: `predict` is linear in the polynomial coefficients: with the same
configuration, weights, signal and alpha, predicting with `c1 + c2`
(elementwise) returns the elementwise sum of the predictions with `c1` and
with `c2`. -/
theorem lvn_c8_predict_linear (lvn : LVN) (W : List (List ℝ))
    (signal : List ℝ) (α : ℝ) (c1 c2 o1 o2 : List ℝ)
    (hlen : c1.length = c2.length)
    (h1 : predict ⟨lvn, some W, some (NpArray.vec c1)⟩ signal α =
      some (NpArray.vec o1))
    (h2 : predict ⟨lvn, some W, some (NpArray.vec c2)⟩ signal α =
      some (NpArray.vec o2)) :
    predict ⟨lvn, some W,
        some (NpArray.vec (List.zipWith (fun u v => u + v) c1 c2))⟩ signal α =
      some (NpArray.vec (List.zipWith (fun u v => u + v) o1 o2)) := by
  by_cases hα : α ≤ 0
  · exfalso
    rw [predict, compute_enhanced_input] at h1
    simp only [if_pos hα] at h1
    exact Option.noConfusion h1
  · rw [predict_vec_eq lvn W c1 signal α hα] at h1
    rw [predict_vec_eq lvn W c2 signal α hα] at h2
    rw [predict_vec_eq lvn W _ signal α hα, matVec_add _ _ _ hlen,
      (NpArray.vec.injEq _ _).mp (Option.some.inj h1),
      (NpArray.vec.injEq _ _).mp (Option.some.inj h2)]

theorem lvn_c8_witness :
    predict ⟨⟨1, 1, 1, 1, false⟩, some [[1]],
        some (NpArray.vec (List.zipWith (fun u v => u + v) [0, 0] [0, 0]))⟩
        [] 1 =
      some (NpArray.vec (List.zipWith (fun u v => u + v) [] [])) := by
  have hp : predict ⟨⟨1, 1, 1, 1, false⟩, some [[1]],
      some (NpArray.vec [0, 0])⟩ [] 1 = some (NpArray.vec []) := by
    simp only [predict, compute_enhanced_input, enhanced_input,
      hidden_nodes_in, matVec, matApply]
    rw [if_neg (by norm_num : ¬ (1 : ℝ) ≤ 0)]
    simp
  exact lvn_c8_predict_linear ⟨1, 1, 1, 1, false⟩ [[1]] [] 1 [0, 0] [0, 0]
    [] [] rfl hp hp

theorem zipWith_comb_getD (a b : ℝ) :
    ∀ x y : List ℝ, y.length = x.length → ∀ n,
      (List.zipWith (fun u v => a * u + b * v) x y).getD n 0 =
        a * x.getD n 0 + b * y.getD n 0 := by
  intro x
  induction x with
  | nil =>
      intro y h n
      rw [List.length_nil, List.length_eq_zero] at h
      subst h
      simp
  | cons u us ih =>
      intro y h n
      cases y with
      | nil => simp at h
      | cons v vs =>
          cases n with
          | zero => simp
          | succ n => simpa using ih vs (by simpa using h) n

/-- C9: `propagate_laguerre_filterbank` is linear in the input signal: for
signals of equal length and `0 < alpha ≤ 1`, propagating `a*x + b*y`
(elementwise) gives, entrywise, `a` times the propagation of `x` plus `b`
times the propagation of `y`. -/
theorem lvn_c9_propagate_linear (lvn : LVN) (x y : List ℝ) (a b α : ℝ)
    (hlen : y.length = x.length) (h0 : 0 < α) (h1 : α ≤ 1) :
    ∀ j < lvn.L, ∀ n < x.length,
      ((laguerre_outputs lvn (List.zipWith (fun u v => a * u + b * v) x y) α).getD
          j []).getD n 0 =
        a * ((laguerre_outputs lvn x α).getD j []).getD n 0 +
          b * ((laguerre_outputs lvn y α).getD j []).getD n 0 := by
  intro j hj n hn
  have hzlen : (List.zipWith (fun u v => a * u + b * v) x y).length = x.length := by
    simp [hlen]
  unfold laguerre_outputs
  rw [map_range_getD _ _ j [] hj, map_range_getD _ _ j [] hj,
    map_range_getD _ _ j [] hj]
  rw [map_range_getD _ _ n 0 (by rw [hzlen]; exact hn),
    map_range_getD _ _ n 0 hn, map_range_getD _ _ n 0 (by rw [hlen]; exact hn)]
  exact bank_outputs_linear (lvn.T : ℝ) α a b _ _ _
    (zipWith_comb_getD a b x y hlen) j (n + 1)

theorem lvn_c9_witness :
    (0 : ℝ) < 1 ∧
    ∀ j < (LVN.mk 1 1 1 1 false).L, ∀ n < ([(1 : ℝ)]).length,
      ((laguerre_outputs ⟨1, 1, 1, 1, false⟩
          (List.zipWith (fun u v => 2 * u + 3 * v) [1] [2]) 1).getD j []).getD n 0 =
        2 * ((laguerre_outputs ⟨1, 1, 1, 1, false⟩ [1] 1).getD j []).getD n 0 +
          3 * ((laguerre_outputs ⟨1, 1, 1, 1, false⟩ [2] 1).getD j []).getD n 0 :=
  ⟨by norm_num,
    lvn_c9_propagate_linear ⟨1, 1, 1, 1, false⟩ [1] [2] 2 3 1 rfl (by norm_num)
      (by norm_num)⟩

theorem enhanced_row_q1 (lvn : LVN) (hbo : lvn.bo_link = true)
    (hQ : lvn.Q = 1) (hrow : List ℝ) : enhanced_row lvn hrow = [1] := by
  unfold enhanced_row
  simp only [first_index, ones_width, hbo, hQ, if_true]
  norm_num

/-- C10: when `bo_link` is true and `Q = 1` the power-assignment loop is
empty, so every row of the enhanced-input matrix is exactly the bias `1`
followed by the transposed filter-bank outputs: total width `L + 1`. -/
theorem lvn_c10_bolink_q1 (s : LVNState) (signal : List ℝ) (α : ℝ)
    (E : List (List ℝ)) (hE : compute_enhanced_input s signal α = some E)
    (hbo : s.lvn.bo_link = true) (hQ : s.lvn.Q = 1) :
    E = List.zipWith (fun r t => r ++ t)
        ((List.range signal.length).map fun _ => [(1 : ℝ)])
        (laguerre_outputs_T s.lvn signal α) ∧
    ∀ n < E.length, (E.getD n []).length = s.lvn.L + 1 := by
  obtain ⟨W, hW, hα, rfl⟩ := compute_enhanced_input_eq s signal α E hE
  have hbase : (hidden_nodes_in s.lvn W signal α).map (enhanced_row s.lvn) =
      (List.range signal.length).map fun _ => [(1 : ℝ)] := by
    unfold hidden_nodes_in
    rw [List.map_map]
    exact List.map_congr_left fun n _ => enhanced_row_q1 s.lvn hbo hQ _
  have hmain : enhanced_input s.lvn W signal α =
      List.zipWith (fun r t => r ++ t)
        ((List.range signal.length).map fun _ => [(1 : ℝ)])
        (laguerre_outputs_T s.lvn signal α) := by
    unfold enhanced_input
    rw [if_pos hbo, hbase]
  refine ⟨hmain, ?_⟩
  intro n hn
  rw [enhanced_input_length] at hn
  rw [hmain]
  rw [zipWith_getD _ _ _ n [] [] [] (by simpa using hn)
    (by simp [laguerre_outputs_T]; exact hn)]
  rw [map_range_getD _ _ n [] hn, laguerre_outputs_T_getD s.lvn signal α n hn]
  simp [Nat.add_comm]

theorem lvn_c10_witness :
    compute_enhanced_input ⟨⟨1, 1, 1, 1, true⟩, some [[1]], none⟩ [] 1 =
      some [] ∧
    ([] : List (List ℝ)) = List.zipWith (fun r t => r ++ t)
        ((List.range ([] : List ℝ).length).map fun _ => [(1 : ℝ)])
        (laguerre_outputs_T ⟨1, 1, 1, 1, true⟩ [] 1) := by
  have hE : compute_enhanced_input ⟨⟨1, 1, 1, 1, true⟩, some [[1]], none⟩ [] 1 =
      some [] := by
    simp [compute_enhanced_input, enhanced_input, hidden_nodes_in,
      laguerre_outputs_T]
  exact ⟨hE, (lvn_c10_bolink_q1 _ [] 1 [] hE rfl rfl).1⟩

theorem c2_bank1 :
    bank_outputs ((1 : ℚ) : ℝ) (1 / 2) (fun i => ([1, 0, 0] : List ℝ).getD i 0)
      0 1 = Real.sqrt (1 / 2) := by
  rw [show (1 : ℕ) = 0 + 1 from rfl, bank_outputs, bank_outputs_zero_col]
  norm_num

theorem c2_bank2 :
    bank_outputs ((1 : ℚ) : ℝ) (1 / 2) (fun i => ([1, 0, 0] : List ℝ).getD i 0)
      0 2 = 1 / 2 := by
  rw [show (2 : ℕ) = 1 + 1 from rfl, bank_outputs, c2_bank1]
  rw [Real.mul_self_sqrt (by norm_num : (0 : ℝ) ≤ 1 / 2)]
  norm_num

theorem c2_bank3 :
    bank_outputs ((1 : ℚ) : ℝ) (1 / 2) (fun i => ([1, 0, 0] : List ℝ).getD i 0)
      0 3 = 1 / 2 * Real.sqrt (1 / 2) := by
  rw [show (3 : ℕ) = 2 + 1 from rfl, bank_outputs, c2_bank2]
  norm_num
  ring

theorem c2_enhanced_row (v : ℝ) :
    enhanced_row ⟨1, 1, 1, 1, false⟩ [v] = [1, v] := by
  unfold enhanced_row
  norm_num [first_index, ones_width, setSlice, List.range']

/-- C2: for the concrete configuration `L=H=Q=1`, `T=1`, `bo_link=false`,
`alpha=1/2`, weights `[[1]]`, coefficients `[0, 1]` and signal `[1,0,0]`,
the filter bank returns `[√(1/2), 1/2, 1/2·√(1/2)]` and `predict` returns
that same vector. -/
theorem lvn_c2_concrete :
    laguerre_outputs ⟨1, 1, 1, 1, false⟩ [1, 0, 0] (1 / 2) =
      [[Real.sqrt (1 / 2), 1 / 2, 1 / 2 * Real.sqrt (1 / 2)]] ∧
    predict ⟨⟨1, 1, 1, 1, false⟩, some [[1]], some (NpArray.vec [0, 1])⟩
        [1, 0, 0] (1 / 2) =
      some (NpArray.vec
        [Real.sqrt (1 / 2), 1 / 2, 1 / 2 * Real.sqrt (1 / 2)]) := by
  constructor
  · unfold laguerre_outputs
    rw [show List.range (LVN.mk 1 1 1 1 false).L = [0] from rfl,
      show List.range ([(1 : ℝ), 0, 0]).length = [0, 1, 2] from rfl]
    simp only [List.map_cons, List.map_nil]
    show [[bank_outputs ((1 : ℚ) : ℝ) (1 / 2)
            (fun i => ([1, 0, 0] : List ℝ).getD i 0) 0 1,
          bank_outputs ((1 : ℚ) : ℝ) (1 / 2)
            (fun i => ([1, 0, 0] : List ℝ).getD i 0) 0 2,
          bank_outputs ((1 : ℚ) : ℝ) (1 / 2)
            (fun i => ([1, 0, 0] : List ℝ).getD i 0) 0 3]] = _
    rw [c2_bank1, c2_bank2, c2_bank3]
  · rw [predict_vec_eq _ _ _ _ _ (by norm_num : ¬ (1 / 2 : ℝ) ≤ 0)]
    have hE : enhanced_input ⟨1, 1, 1, 1, false⟩ [[1]] [1, 0, 0] (1 / 2) =
        [[1, Real.sqrt (1 / 2)], [1, 1 / 2],
          [1, 1 / 2 * Real.sqrt (1 / 2)]] := by
      unfold enhanced_input
      rw [if_neg (by simp)]
      unfold hidden_nodes_in
      rw [show List.range ([(1 : ℝ), 0, 0]).length = [0, 1, 2] from rfl,
        show List.range (LVN.mk 1 1 1 1 false).H = [0] from rfl]
      simp only [List.map_cons, List.map_nil, Finset.sum_range_one,
        List.getD_cons_zero, mul_one, c2_enhanced_row]
      show [[1, bank_outputs ((1 : ℚ) : ℝ) (1 / 2)
              (fun i => ([1, 0, 0] : List ℝ).getD i 0) 0 1],
            [1, bank_outputs ((1 : ℚ) : ℝ) (1 / 2)
              (fun i => ([1, 0, 0] : List ℝ).getD i 0) 0 2],
            [1, bank_outputs ((1 : ℚ) : ℝ) (1 / 2)
              (fun i => ([1, 0, 0] : List ℝ).getD i 0) 0 3]] = _
      rw [c2_bank1, c2_bank2, c2_bank3]
    rw [hE]
    simp [matVec, dotRow]

theorem lvn_c7_witness :
    compute_enhanced_input ⟨⟨1, 1, 1, 1, false⟩, some [[1]], none⟩ [1] 1 =
      some [[1, 0]] ∧
    ∀ n < ([[(1 : ℝ), 0]] : List (List ℝ)).length,
      (([[(1 : ℝ), 0]] : List (List ℝ)).getD n []).getD 0 0 = 1 := by
  have hb : bank_outputs ((1 : ℚ) : ℝ) 1
      (fun i => ([1] : List ℝ).getD i 0) 0 1 = 0 := by
    rw [show (1 : ℕ) = 0 + 1 from rfl, bank_outputs, bank_outputs_zero_col]
    norm_num
  have hE : compute_enhanced_input ⟨⟨1, 1, 1, 1, false⟩, some [[1]], none⟩
      [1] 1 = some [[1, 0]] := by
    simp only [compute_enhanced_input]
    rw [if_neg (by norm_num : ¬ (1 : ℝ) ≤ 0)]
    unfold enhanced_input
    rw [if_neg (by simp)]
    unfold hidden_nodes_in
    rw [show List.range ([(1 : ℝ)]).length = [0] from rfl,
      show List.range (LVN.mk 1 1 1 1 false).H = [0] from rfl]
    simp only [List.map_cons, List.map_nil, Finset.sum_range_one,
      List.getD_cons_zero, mul_one, c2_enhanced_row]
    show some [[1, bank_outputs ((1 : ℚ) : ℝ) 1
        (fun i => ([1] : List ℝ).getD i 0) 0 1]] = _
    rw [hb]
  exact ⟨hE, lvn_c7_column_ones _ [1] 1 _ hE (by simp)⟩
